import Mathlib

/-!
Verification development for the rice-cli repository (Go).

We shallowly embed the core of the tool in Lean:

* path/byte utilities mirroring Go's path/filepath helpers used by the code
  (paths are modelled as lists of segments; a relative path string is the
  segments joined by the separator, and bytes of a string are modelled by
  its character code points, which coincides with the UTF-8 byte sequence
  on ASCII data);
* the schema model and allow-lists from pkg/manifest;
* the rule validator from internal/validate/validator.go
  (the external YAML parser is a parameter of the embedding);
* the content hasher and sign/replace logic from internal/sign/signer.go
  (SHA-256 is an external library primitive, so the hash is a parameter:
  every theorem about the digest holds for an arbitrary hash function
  applied to the byte stream the code feeds it);
* the archive packager from internal/bundle (Builder.Build) and the
  extractor (extractBundle), over an abstract archive of entries.
-/

namespace RiceCLI

/-! ## Path and byte utilities -/

/-- A relative path, as its separator-delimited segments
(Go joins them with the OS separator, "/" on the target platform). -/
abbrev Path := List String

/-- The path string of a list of segments (segments joined by "/"),
as produced by filepath.Rel / filepath.Join on clean inputs. -/
def pathStr (segs : Path) : String := String.intercalate "/" segs

/-- filepath.Base of a relative path: its last segment. -/
def baseSeg (segs : Path) : String := segs.getLastD ""

/-- The byte sequence of a string fed into the hash or searched by
strings.Contains. Modelled by the code-point sequence, which equals the
UTF-8 byte sequence on ASCII data. -/
def strBytes (s : String) : List Nat := s.toList.map Char.toNat

/-- filepath.Ext of a file name: the suffix starting at the final dot,
including the dot; empty if the name has no dot. -/
def extOf (name : String) : String :=
  let cs := name.toList
  if cs.contains '.' then
    String.mk ('.' :: (cs.reverse.takeWhile (fun c => c != '.')).reverse)
  else ""

/-- Bool test for strings.HasPrefix on the underlying characters. -/
def strHasPre (s pre : String) : Bool := pre.toList.isPrefixOf s.toList

/-- Bool substring containment over char lists
(strings.Contains; the empty pattern is contained in everything). -/
def charsContain (pat : List Char) : List Char → Bool
  | [] => pat.isEmpty
  | c :: rest => pat.isPrefixOf (c :: rest) || charsContain pat rest

/-- strings.Contains. -/
def strContains (s pat : String) : Bool := charsContain pat.toList s.toList

/-- Bool substring containment over byte lists. -/
def bytesContain (pat : List Nat) : List Nat → Bool
  | [] => pat.isEmpty
  | b :: rest => pat.isPrefixOf (b :: rest) || bytesContain pat rest

/-- ASCII lower-casing of a byte, modelling strings.ToLower for the
ASCII contents the copyright check searches for. -/
def asciiLower (b : Nat) : Nat := if 65 ≤ b ∧ b ≤ 90 then b + 32 else b

/-- strings.ToLower on a string (per-character lower-casing). -/
def lowerStr (s : String) : String := String.mk (s.toList.map Char.toLower)

/-! ## Schema model (pkg/manifest) -/

structure Release where
  Title : String
  Artist : String
  ReleaseDate : String
  Genre : String
  Subgenre : String
  CatalogNumber : String
deriving DecidableEq

structure Track where
  Number : Nat
  Title : String
  Duration : String
  Filename : String
deriving DecidableEq

structure AudioFormat where
  Format : String
  Bitrate : Nat
  BitDepth : Nat
  SampleRate : Nat
deriving DecidableEq

structure ImageInfo where
  Filename : String
  Width : Nat
  Height : Nat
deriving DecidableEq

structure Images where
  Cover : ImageInfo
deriving DecidableEq

structure Rights where
  CopyrightYear : Nat
  CopyrightHolder : String
  License : String
  Contact : String
deriving DecidableEq

structure BundleMeta where
  CreatedBy : String
  CreatedAt : String
  BundleID : String
deriving DecidableEq

structure Manifest where
  ManifestVersion : Nat
  Release : Release
  Tracks : List Track
  AudioFormats : List AudioFormat
  Images : Images
  Rights : Rights
  Bundle : BundleMeta
deriving DecidableEq

/-- AllowedAudioExtensions (extension → bool map, as the list of keys). -/
def AllowedAudioExtensions : List String := [".mp3", ".flac", ".ogg", ".wav"]

/-- AllowedImageExtensions. -/
def AllowedImageExtensions : List String := [".jpg", ".jpeg"]

/-- AllowedTextExtensions. -/
def AllowedTextExtensions : List String := [".txt", ".yaml", ".yml"]

/-- AllowedSignatureExtensions. -/
def AllowedSignatureExtensions : List String := [".sig"]

/-- AllAllowedExtensions: the union of the four allow-lists. -/
def AllAllowedExtensions : List String :=
  AllowedAudioExtensions ++ AllowedImageExtensions ++
    AllowedTextExtensions ++ AllowedSignatureExtensions

/-- MaxSingleAudioFile = 200 MB. -/
def MaxSingleAudioFile : Nat := 200 * 1024 * 1024

/-- MaxSingleImageFile = 20 MB. -/
def MaxSingleImageFile : Nat := 20 * 1024 * 1024

/-! ## File-tree model

A source tree is a node: either a regular file with its byte contents, or
a directory with a named list of children (listed in the order the
directory listing returns them). -/

inductive FNode where
  | file (content : List Nat)
  | dir (children : List (String × FNode))

abbrev Tree := List (String × FNode)

def FNode.isDirN : FNode → Bool
  | .dir _ => true
  | .file _ => false

/-- Directory lookup of one name. -/
def findEntry (ch : Tree) (name : String) : Option FNode :=
  (ch.find? (fun e => e.1 == name)).map (fun e => e.2)

/-- os.Stat/lookup of a relative path inside a node. -/
def lookupPath : List String → FNode → Option FNode
  | [], n => some n
  | _ :: _, .file _ => none
  | s :: rest, .dir ch =>
    match findEntry ch s with
    | none => none
    | some n => lookupPath rest n

/-- os.Stat of a path under the source root. -/
def statPath (t : Tree) (p : List String) : Option FNode :=
  lookupPath p (.dir t)

mutual
/-- filepath.Walk visit list of one named node: the node itself first,
then (for directories) all descendants, each with its relative path. -/
def walkNode (nm : String) (n : FNode) : List (Path × FNode) :=
  ([nm], n) ::
    (match n with
     | .file _ => []
     | .dir ch => (walkList ch).map (fun e => (nm :: e.1, e.2)))

/-- filepath.Walk visit list of a tree (the root itself excluded). -/
def walkList : Tree → List (Path × FNode)
  | [] => []
  | e :: rest => walkNode e.1 e.2 ++ walkList rest
end

/-! ## Validation results (internal/validate) -/

structure Result where
  Category : String
  Check : String
  Passed : Bool
  Severity : String
  Message : String
deriving DecidableEq

structure Report where
  Path : String
  Results : List Result
  Errors : Nat
  Warns : Nat
deriving DecidableEq

/-- addResult with passed = true (code passes severity "" and message ""). -/
def mkPass (cat chk : String) : Result :=
  { Category := cat, Check := chk, Passed := true, Severity := "", Message := "" }

/-- addResult with passed = false; every failing call in validator.go
passes the literal severity "error". -/
def mkErr (cat chk msg : String) : Result :=
  { Category := cat, Check := chk, Passed := false, Severity := "error", Message := msg }

/-- The error counter accumulated by addResult:
failures whose severity is "error". -/
def countErrors (rs : List Result) : Nat :=
  (rs.filter (fun r => !r.Passed && r.Severity == "error")).length

/-- The warning counter accumulated by addResult:
failures whose severity is not "error". -/
def countWarns (rs : List Result) : Nat :=
  (rs.filter (fun r => !r.Passed && !(r.Severity == "error"))).length

/-! ## Rule validator (internal/validate/validator.go)

The external YAML parser (gopkg.in/yaml.v3) is a parameter of the
embedding: parse data = none models an Unmarshal error. Directory
listings and walks are consumed in the order the tree lists its entries.
os.ReadFile of a directory fails on the target platform, and os.ReadDir
of a regular file fails; both are modelled where the code checks those
errors. -/

/-- validateStructure: one Result per required top-level entry; the cover
check accepts cover.jpg or cover.jpeg (os.Stat succeeding). -/
def structCheck (ok : Bool) (chk msg : String) : Result :=
  if ok then mkPass "Structure" chk else mkErr "Structure" chk msg

def structureResults (t : Tree) : List Result :=
  [structCheck (statPath t ["manifest.yaml"]).isSome
    "manifest.yaml exists" "manifest.yaml not found",
   structCheck (statPath t ["copyright.txt"]).isSome
    "copyright.txt exists" "copyright.txt not found",
   structCheck (match statPath t ["audio"] with
                | some (.dir _) => true
                | _ => false)
    "audio/ directory exists" "audio/ directory not found",
   structCheck (match statPath t ["images"] with
                | some (.dir _) => true
                | _ => false)
    "images/ directory exists" "images/ directory not found",
   structCheck ((statPath t ["images", "cover.jpg"]).isSome
      || (statPath t ["images", "cover.jpeg"]).isSome)
    "cover image exists" "cover.jpg not found in images/"]

/-- One required-field check of validateManifest: an error Result when
the emptiness test holds, a passing Result otherwise. -/
def manifestCheck (bad : Bool) (chk msg : String) : List Result :=
  if bad then [mkErr "Manifest" chk msg] else [mkPass "Manifest" chk]

/-- The per-track loop of validateManifest: only failures are recorded. -/
def trackResults (tracks : List Track) : List Result :=
  tracks.enum.flatMap (fun it =>
    (if it.2.Number == 0 then
      [mkErr "Manifest" ("track[" ++ toString it.1 ++ "].number")
        "track number is required"]
     else []) ++
    (if it.2.Title == "" then
      [mkErr "Manifest" ("track[" ++ toString it.1 ++ "].title")
        "track title is required"]
     else []) ++
    (if it.2.Filename == "" then
      [mkErr "Manifest" ("track[" ++ toString it.1 ++ "].filename")
        "track filename is required"]
     else []))

/-- The required-field checks run after a successful parse. -/
def manifestFieldResults (m : Manifest) : List Result :=
  manifestCheck (m.ManifestVersion == 0) "manifest_version present"
    "manifest_version is required" ++
  manifestCheck (m.Release.Title == "") "release.title present"
    "release.title is required" ++
  manifestCheck (m.Release.Artist == "") "release.artist present"
    "release.artist is required" ++
  manifestCheck (m.Release.ReleaseDate == "") "release.release_date present"
    "release.release_date is required" ++
  (if m.Tracks.isEmpty then
    [mkErr "Manifest" "tracks present" "at least one track is required"]
   else mkPass "Manifest" "tracks present" :: trackResults m.Tracks) ++
  manifestCheck m.AudioFormats.isEmpty "audio_formats present"
    "at least one audio format is required" ++
  manifestCheck (m.Images.Cover.Filename == "") "images.cover present"
    "images.cover is required" ++
  manifestCheck (m.Rights.CopyrightYear == 0) "rights.copyright_year present"
    "rights.copyright_year is required" ++
  manifestCheck (m.Rights.CopyrightHolder == "") "rights.copyright_holder present"
    "rights.copyright_holder is required" ++
  manifestCheck (m.Bundle.BundleID == "") "bundle.bundle_id present"
    "bundle.bundle_id is required"

/-- validateManifest: an unreadable metadata file (missing, or a
directory) yields one "readable" error; a parse failure yields one
"valid YAML syntax" error and no field checks; otherwise the field
checks run after the passing syntax Result. -/
def manifestResults (parse : List Nat → Option Manifest) (t : Tree) :
    List Result :=
  match statPath t ["manifest.yaml"] with
  | some (.file data) =>
    match parse data with
    | none => [mkErr "Manifest" "valid YAML syntax" "invalid YAML"]
    | some m => mkPass "Manifest" "valid YAML syntax" :: manifestFieldResults m
  | _ => [mkErr "Manifest" "readable" "cannot read manifest"]

/-- verifyMagicBytes: the first 12 bytes are read (fewer than 4 readable
bytes is an error); the extension selects the expected signature. -/
def magicCheck (ext : String) (content : List Nat) : Option String :=
  if content.length < 4 then some "cannot read file header"
  else
    let b := fun (i : Nat) => content.getD i 0
    if ext == ".mp3" then
      if !((b 0 == 73 && b 1 == 68 && b 2 == 51)
          || (b 0 == 255 && (b 1 &&& 224) == 224)) then
        some "file does not appear to be a valid MP3"
      else none
    else if ext == ".flac" then
      if !(b 0 == 102 && b 1 == 76 && b 2 == 97 && b 3 == 67) then
        some "file does not appear to be a valid FLAC"
      else none
    else if ext == ".jpg" || ext == ".jpeg" then
      if !(b 0 == 255 && b 1 == 216 && b 2 == 255) then
        some "file does not appear to be a valid JPEG"
      else none
    else if ext == ".ogg" then
      if !(b 0 == 79 && b 1 == 103 && b 2 == 103 && b 3 == 83) then
        some "file does not appear to be a valid OGG"
      else none
    else if ext == ".wav" then
      if !(b 0 == 82 && b 1 == 73 && b 2 == 70 && b 3 == 70) then
        some "file does not appear to be a valid WAV"
      else none
    else none

/-- The per-file checks of validateAudio, with the Bool reporting whether
the file counts as a valid audio file. -/
def audioFileCheck (name : String) (content : List Nat) : Result × Bool :=
  let ext := lowerStr (extOf name)
  if !(AllowedAudioExtensions.contains ext) then
    (mkErr "Audio" ("file " ++ name) ("file type " ++ ext ++ " not allowed"),
     false)
  else if content.length > MaxSingleAudioFile then
    (mkErr "Audio" ("file " ++ name ++ " size")
      "file exceeds maximum size of 200 MB", false)
  else
    match magicCheck ext content with
    | some msg => (mkErr "Audio" ("file " ++ name ++ " magic bytes") msg, false)
    | none => (mkPass "Audio" ("file " ++ name), true)

/-- The Results appended by validateAudio's loop (one per non-directory
entry, in listing order). -/
def audioEntryResults (entries : Tree) : List Result :=
  entries.flatMap (fun e =>
    match e.2 with
    | .dir _ => []
    | .file c => [(audioFileCheck e.1 c).1])

/-- audioCount: the number of entries passing every audio check. -/
def audioValidCount (entries : Tree) : Nat :=
  (entries.filter (fun e =>
    match e.2 with
    | .dir _ => false
    | .file c => (audioFileCheck e.1 c).2)).length

/-- validateAudio: absent audio/ was already reported by Structure (no
Results); an unreadable listing is one error; otherwise the per-file
Results plus the at-least-one error when no file was valid. -/
def audioResults (t : Tree) : List Result :=
  match statPath t ["audio"] with
  | none => []
  | some (.file _) => [mkErr "Audio" "readable" "cannot read audio directory"]
  | some (.dir entries) =>
    audioEntryResults entries ++
      (if audioValidCount entries == 0 then
        [mkErr "Audio" "at least one audio file" "no valid audio files found"]
       else [])

/-- The per-file checks of validateImages: README .txt files are skipped;
files named cover* (case-insensitive) additionally undergo the size
heuristic standing in for a dimension check. -/
def imageFileCheck (name : String) (content : List Nat) : List Result :=
  let ext := lowerStr (extOf name)
  if ext == ".txt" then []
  else if !(AllowedImageExtensions.contains ext) then
    [mkErr "Images" ("file " ++ name) ("file type " ++ ext ++ " not allowed")]
  else if content.length > MaxSingleImageFile then
    [mkErr "Images" ("file " ++ name ++ " size")
      "file exceeds maximum size of 20 MB"]
  else
    match magicCheck ext content with
    | some msg => [mkErr "Images" ("file " ++ name ++ " magic bytes") msg]
    | none =>
      if strHasPre (lowerStr name) "cover" then
        if content.length < 10 * 1024 then
          [mkErr "Images" ("file " ++ name ++ " dimensions")
            "cover image appears too small (file size suggests low resolution)"]
        else [mkPass "Images" ("file " ++ name)]
      else [mkPass "Images" ("file " ++ name)]

/-- validateImages. -/
def imagesResults (t : Tree) : List Result :=
  match statPath t ["images"] with
  | none => []
  | some (.file _) => [mkErr "Images" "readable" "cannot read images directory"]
  | some (.dir entries) =>
    entries.flatMap (fun e =>
      match e.2 with
      | .dir _ => []
      | .file c => imageFileCheck e.1 c)

/-- validateSecurity's per-entry decision, in the code's check order:
substring ".." anywhere in the relative path string; hidden
non-directory; directories are then skipped; missing extension;
extension outside the global allow-list. At most one error per entry. -/
def securityEntryResult (segs : Path) (isDir : Bool) : Option Result :=
  let rel := pathStr segs
  if strContains rel ".." then
    some (mkErr "Security" ("path " ++ rel) "path traversal detected")
  else if !isDir && strHasPre (baseSeg segs) "." then
    some (mkErr "Security" ("file " ++ rel) "hidden files not allowed")
  else if isDir then none
  else if extOf (baseSeg segs) == "" then
    some (mkErr "Security" ("file " ++ rel) "files must have extensions")
  else if !(AllAllowedExtensions.contains (lowerStr (extOf (baseSeg segs)))) then
    some (mkErr "Security" ("file " ++ rel)
      ("file type " ++ lowerStr (extOf (baseSeg segs)) ++ " not allowed"))
  else none

/-- validateSecurity: walk every entry under the root (the root itself
skipped). -/
def securityResults (t : Tree) : List Result :=
  (walkList t).filterMap (fun e => securityEntryResult e.1 e.2.isDirN)

/-- The code's rejection condition for one Security entry, as a single
predicate (an error Result is recorded iff it holds). -/
def codeSecurityViolation (segs : Path) (isDir : Bool) : Bool :=
  strContains (pathStr segs) ".." ||
  (!isDir && strHasPre (baseSeg segs) ".") ||
  (!isDir && extOf (baseSeg segs) == "") ||
  (!isDir && !(AllAllowedExtensions.contains (lowerStr (extOf (baseSeg segs)))))

/-- Modelled from the spec: the Security rejection condition as the claim
states it — the relative path contains a parent-directory segment, or the
entry is a hidden non-directory, or a file without an extension, or a
file whose lowercased extension is outside the global allow-list. -/
def specSecurityViolation (segs : Path) (isDir : Bool) : Bool :=
  segs.contains ".." ||
  (!isDir && strHasPre (baseSeg segs) ".") ||
  (!isDir && extOf (baseSeg segs) == "") ||
  (!isDir && !(AllAllowedExtensions.contains (lowerStr (extOf (baseSeg segs)))))

/-- The UTF-8 bytes of the copyright glyph searched for by
validateCopyright. -/
def copyrightGlyph : List Nat := [194, 169]

/-- validateCopyright: an unreadable file returns without Results (the
Structure category already reported it); an empty file short-circuits;
otherwise the token, holder and size checks run in order (the size check
records no passing Result). -/
def copyrightResults (t : Tree) : List Result :=
  match statPath t ["copyright.txt"] with
  | some (.file data) =>
    if data.length == 0 then
      [mkErr "Copyright" "file not empty" "copyright.txt is empty"]
    else
      [mkPass "Copyright" "file not empty"] ++
      (if !(bytesContain (strBytes "copyright") (data.map asciiLower)) then
        [mkErr "Copyright" "contains copyright declaration"
          "must contain Copyright declaration"]
       else [mkPass "Copyright" "contains copyright declaration"]) ++
      (if !(bytesContain (strBytes "Copyright Holder:") data
            || bytesContain (strBytes "copyright holder:") data
            || bytesContain copyrightGlyph data) then
        [mkErr "Copyright" "contains copyright holder"
          "must specify copyright holder"]
       else [mkPass "Copyright" "contains copyright holder"]) ++
      (if data.length > 10 * 1024 then
        [mkErr "Copyright" "file size" "copyright.txt exceeds 10 KB limit"]
       else [])
  | _ => []

/-- The six category checks, in the order Validate runs them. -/
def runChecks (parse : List Nat → Option Manifest) (t : Tree) : List Result :=
  structureResults t ++ manifestResults parse t ++ audioResults t ++
    imagesResults t ++ securityResults t ++ copyrightResults t

/-- The report accumulated through addResult over a result list. -/
def mkReport (pathName : String) (rs : List Result) : Report :=
  { Path := pathName, Results := rs,
    Errors := countErrors rs, Warns := countWarns rs }

/-- Validate: fails when the path does not exist or is not a directory
(with the special message for .ricecake files); otherwise all six
categories run and a report is returned. -/
def Validate (parse : List Nat → Option Manifest) (pathName : String)
    (root : Option FNode) : Except String Report :=
  match root with
  | none => .error ("path does not exist: " ++ pathName)
  | some (.file _) =>
    if pathName.endsWith ".ricecake" then
      .error "validation of .ricecake files not yet implemented - validate the source directory instead"
    else
      .error ("path must be a directory: " ++ pathName)
  | some (.dir t) => .ok (mkReport pathName (runChecks parse t))

/-- A result as addResult can shape it here: passing with empty severity,
or failing with severity "error". -/
def wfResult (r : Result) : Prop :=
  (r.Passed = true ∧ r.Severity = "") ∨ (r.Passed = false ∧ r.Severity = "error")

/-! ## Build/validate command logic (cmd/rice) -/

/-- runBuild proceeds to packaging iff the report has no errors
(build.go: if report.Errors > 0 then fail). -/
def runBuildProceeds (r : Report) : Bool :=
  if r.Errors > 0 then false else true

/-- The error count the validate command exits on
(validate.go outputText: errors := report.Errors; if strict, += Warns). -/
def effectiveErrors (strict : Bool) (r : Report) : Nat :=
  if strict then r.Errors + r.Warns else r.Errors

/-- The validate command exits zero iff the effective error count is zero
(outputText calls os.Exit(2) when errors > 0). -/
def validateExitsZero (strict : Bool) (r : Report) : Bool :=
  if effectiveErrors strict r > 0 then false else true

/-! ## Signing: archive replacement (internal/sign SignBundle tail)

State of the two paths involved: the original bundle path and the sibling
temp path bundlePath ++ ".tmp". SignBundle rebuilds the new archive at the
temp path, then calls os.Remove on the original, then os.Rename of the
temp over the original path. Failure of the remove or rename step is
injected through the two Bool flags. The Bool in the result is true iff
SignBundle returns an error from this phase. -/

structure BundleFS where
  orig : Option (List Nat)
  tmp : Option (List Nat)
deriving DecidableEq

def signReplace (fs0 : BundleFS) (newC : List Nat)
    (removeFails renameFails : Bool) : BundleFS × Bool :=
  -- rebuildBundle(tempDir, bundlePath+".tmp") writes the new archive
  let fs1 : BundleFS := { fs0 with tmp := some newC }
  if removeFails then
    -- os.Remove(bundlePath) failed: delete the temp file, return error
    ({ fs1 with tmp := none }, true)
  else
    -- os.Remove(bundlePath) succeeded: the original is gone
    let fs2 : BundleFS := { fs1 with orig := none }
    if renameFails then
      -- os.Rename(newBundlePath, bundlePath) failed: error returned,
      -- nothing restores the original
      (fs2, true)
    else
      ({ orig := some newC, tmp := none }, false)

/-! ## Content hasher (internal/sign computeContentHash)

The walk over the extracted tree is modelled by its visit list: one entry
per visited path (relative path segments plus the IsDir flag), and the
file contents are read from the filesystem by path (fs). SHA-256 is an
external library primitive, so the digest is stated for an arbitrary hash
function h applied to the byte stream the code writes into the hasher. -/

/-- The file list computeContentHash collects: every walked entry that is
not a directory and whose base name is not "signature.sig", as its
relative path string. -/
def collectHashFiles (entries : List (Path × Bool)) : List String :=
  (entries.filter (fun e => !e.2 && !(baseSeg e.1 == "signature.sig"))).map
    (fun e => pathStr e.1)

/-- sort.Strings: lexicographic sort of the relative path strings. -/
def sortStrings (l : List String) : List String :=
  List.insertionSort (· ≤ ·) l

/-- The byte stream written into the hasher: for each file in sorted
order, hash.Write(path bytes) then hash.Write(file contents). -/
def hashStream (entries : List (Path × Bool)) (fs : String → List Nat) : List Nat :=
  (sortStrings (collectHashFiles entries)).foldl
    (fun acc p => (acc ++ strBytes p) ++ fs p) []

/-- computeContentHash: the hash of the accumulated byte stream
(hash.Sum over the incremental writes). -/
def computeContentHash (h : List Nat → List Nat)
    (entries : List (Path × Bool)) (fs : String → List Nat) : List Nat :=
  h (hashStream entries fs)

/-- Modelled from the spec: the canonical serialization of a file tree —
enumerate every regular file under the tree except files named
signature.sig, sort the relative paths lexicographically, and concatenate,
for each file in that order, the relative path bytes followed by the
file's raw bytes. -/
def specCanonicalSerialization (entries : List (Path × Bool))
    (fs : String → List Nat) : List Nat :=
  (sortStrings
      ((entries.filter (fun e => !e.2 && !(baseSeg e.1 == "signature.sig"))).map
        (fun e => pathStr e.1))).flatMap
    (fun p => strBytes p ++ fs p)

/-! ## Archive packager and extractor
(internal/bundle Builder.Build, internal/sign extractBundle)

An archive is a list of entries. Entry names use forward-slash separators;
they are modelled by their segment lists, with the trailing-slash marking
of directory entries carried by the isDir flag (mirroring what the zip
reader's FileInfo().IsDir() reports). -/

structure ZipEntry where
  name : Path
  isDir : Bool
  content : List Nat
deriving DecidableEq

/-- filepath.Join(destDir, name): the destination root's segments followed
by the entry name's segments, with Go's path cleaning applied — empty and
"." segments vanish, ".." removes the preceding segment and never rises
above the filesystem root (the root being absolute). -/
def cleanAppend (root : Path) (segs : Path) : Path :=
  segs.foldl
    (fun acc s =>
      if s == "" || s == "." then acc
      else if s == ".." then acc.dropLast
      else acc ++ [s]) root

/-- The extractor's security check strings.HasPrefix(destPath,
Clean(destDir) + separator): the resolved destination lies strictly under
the destination root, i.e. the root's segments are a proper prefix of the
destination's. (goPrefixCheck below is the same check character for
character, and coincides with this one on clean paths.) -/
def underRoot (root dest : Path) : Bool :=
  root.isPrefixOf dest && decide (root.length < dest.length)

/-- The characters of the separator-joined path string of a segment
list. -/
def pathChars : Path → List Char
  | [] => []
  | [s] => s.toList
  | s :: rest => s.toList ++ '/' :: pathChars rest

/-- The extractor's check exactly as the code performs it on strings:
strings.HasPrefix(destPath, Clean(destDir) + "/"), where Clean(destDir)
is the absolute clean destination root "/" ++ pathStr root and destPath
the resolved absolute destination "/" ++ pathStr dest. -/
def goPrefixCheck (root dest : Path) : Bool :=
  (('/' :: pathChars root) ++ ['/']).isPrefixOf ('/' :: pathChars dest)

/-- The extraction destination: directories created so far and files
written so far (in write order). -/
structure ExtractState where
  dirs : List Path
  files : List (Path × List Nat)
deriving DecidableEq

/-- The nonempty prefixes of a path: the directory and all its ancestors
created by os.MkdirAll. -/
def prefixesOf (p : Path) : List Path :=
  (List.range p.length).map (fun i => p.take (i + 1))

/-- os.MkdirAll. -/
def mkdirAll (st : ExtractState) (p : Path) : ExtractState :=
  { st with dirs := st.dirs ++ prefixesOf p }

/-- One iteration of extractBundle's loop: resolve the destination path,
reject the entry unless it lies strictly under the destination root;
create the directory for a directory entry; for a file entry create the
parent directories first and then write the file. -/
def extractStep (root : Path) (st : ExtractState) (e : ZipEntry) :
    Except String ExtractState :=
  let dest := cleanAppend root e.name
  if !(underRoot root dest) then
    .error ("invalid file path: " ++ pathStr e.name)
  else if e.isDir then
    .ok (mkdirAll st dest)
  else
    let st1 := mkdirAll st dest.dropLast
    .ok { st1 with files := st1.files ++ [(dest, e.content)] }

/-- extractBundle: extract the entries in archive order; the first
rejected or failing entry aborts the whole extraction. -/
def extractBundle (root : Path) (entries : List ZipEntry)
    (st0 : ExtractState) : Except String ExtractState :=
  entries.foldlM (extractStep root) st0

/-- Builder.Build's skip rule: helper README.txt files that are not at
the root of the tree (filepath.Dir(relPath) is not "."). -/
def isSubReadme (p : Path) : Bool :=
  decide (2 ≤ p.length) && baseSeg p == "README.txt"

/-- The archive entry Builder.Build emits for one walked entry, if any. -/
def packEntry (e : Path × FNode) : Option ZipEntry :=
  if isSubReadme e.1 then none
  else
    match e.2 with
    | .dir _ => some { name := e.1, isDir := true, content := [] }
    | .file c => some { name := e.1, isDir := false, content := c }

/-- Builder.Build over a walk visit list. -/
def packList (L : List (Path × FNode)) : List ZipEntry :=
  L.filterMap packEntry

/-- Builder.Build: walk the source tree (the root itself is skipped),
skip subdirectory README.txt helpers, and emit one entry per directory
or file with separators normalized to forward slashes. -/
def packEntries (t : Tree) : List ZipEntry :=
  packList (walkList t)

/-- The regular files of a tree, with their relative paths and bytes. -/
def treeFiles (t : Tree) : List (Path × List Nat) :=
  (walkList t).filterMap (fun e =>
    match e.2 with
    | .file c => some (e.1, c)
    | .dir _ => none)

/-- The directories of a tree (besides the root). -/
def treeDirs (t : Tree) : List Path :=
  (walkList t).filterMap (fun e =>
    match e.2 with
    | .dir _ => some e.1
    | .file _ => none)

/-- A plain file-system name: nonempty, not "." or "..", and without a
separator. -/
def wfName (s : String) : Prop :=
  s ≠ "" ∧ s ≠ "." ∧ s ≠ ".." ∧ s.toList.contains '/' = false

instance : DecidablePred wfName := fun s => by
  unfold wfName
  infer_instance

/-- A well-formed source tree: every walked entry's path consists of
plain names. -/
def wfTree (t : Tree) : Prop :=
  ∀ e ∈ walkList t, ∀ s ∈ e.1, wfName s

instance : DecidablePred wfTree := fun t => by
  unfold wfTree
  infer_instance

/-- No helper README.txt below the root of the tree. -/
def noSubReadme (t : Tree) : Prop :=
  ∀ e ∈ walkList t, isSubReadme e.1 = false

instance : DecidablePred noSubReadme := fun t => by
  unfold noSubReadme
  infer_instance

/-! ## Info command signature reporting (cmd/rice/info.go)

outputInfoText checks only whether signature.sig exists; with the
--verify flag it prints that verification is not yet implemented. No
digest is ever recomputed and no signature is ever checked. -/

def infoSignedLine (sigExists verifyFlag : Bool) : String :=
  if sigExists then
    if verifyFlag then "Signed: Yes (verification not yet implemented)"
    else "Signed: Yes"
  else "Signed: No"

/-- The signature status line runInfo prints for a bundle directory. -/
def runInfoSignedLine (t : Tree) (verifyFlag : Bool) : String :=
  infoSignedLine (statPath t ["signature.sig"]).isSome verifyFlag

end RiceCLI

namespace RiceCLI

/-! # Theorems -/

/-- C3: for every validation report, the build proceeds iff the error
count is zero; the validate command blocks (non-zero exit) on warnings
only under strict mode, where the effective error count is the combined
error+warning count, which must be zero for the command to succeed. -/
theorem build_buildable_iff_no_errors (r : Report) :
    (runBuildProceeds r = true ↔ r.Errors = 0) ∧
    (validateExitsZero false r = true ↔ r.Errors = 0) ∧
    (validateExitsZero true r = true ↔ r.Errors + r.Warns = 0) := by
  refine ⟨?_, ?_, ?_⟩
  · simp [runBuildProceeds]
  · simp [validateExitsZero, effectiveErrors]
  · simp only [validateExitsZero, effectiveErrors, if_true]
    constructor
    · intro h
      by_contra hne
      simp [Nat.pos_of_ne_zero hne] at h
    · intro h
      simp [h]

/-- Sorting is determined by the multiset of elements: two permuted
lists of strings have the same sorted form. -/
theorem sortStrings_perm_eq {l1 l2 : List String} (hp : l1.Perm l2) :
    sortStrings l1 = sortStrings l2 :=
  List.eq_of_perm_of_sorted
    (((List.perm_insertionSort _ l1).trans hp).trans
      (List.perm_insertionSort _ l2).symm)
    (List.sorted_insertionSort _ l1) (List.sorted_insertionSort _ l2)

/-- The incremental hasher writes accumulate to the concatenation of
path bytes and contents over the file list. -/
theorem foldl_hash_eq (fs : String → List Nat) :
    ∀ (l : List String) (acc : List Nat),
      l.foldl (fun a p => (a ++ strBytes p) ++ fs p) acc
        = acc ++ l.flatMap (fun p => strBytes p ++ fs p)
  | [], acc => by simp
  | p :: l, acc => by
    rw [List.foldl_cons, foldl_hash_eq fs l]
    simp [List.append_assoc]

/-- C1: for every file tree, the content digest is the hash of the
canonical serialization — regular files except those named signature.sig,
relative paths sorted lexicographically, and for each file in order the
path bytes followed by the file bytes — and two walks of the same tree in
different traversal orders (permuted visit lists over the same file
contents) yield the identical digest. -/
theorem computeContentHash_canonical (h : List Nat → List Nat)
    (fs : String → List Nat) (entries1 entries2 : List (Path × Bool))
    (hperm : entries1.Perm entries2) :
    computeContentHash h entries1 fs
      = h (specCanonicalSerialization entries1 fs) ∧
    computeContentHash h entries1 fs = computeContentHash h entries2 fs := by
  have hstream : ∀ es, hashStream es fs = specCanonicalSerialization es fs := by
    intro es
    unfold hashStream specCanonicalSerialization collectHashFiles
    rw [foldl_hash_eq]
    simp
  constructor
  · unfold computeContentHash
    rw [hstream]
  · unfold computeContentHash hashStream collectHashFiles
    have : sortStrings
        ((entries1.filter (fun e => !e.2 && !(baseSeg e.1 == "signature.sig"))).map
          (fun e => pathStr e.1))
      = sortStrings
        ((entries2.filter (fun e => !e.2 && !(baseSeg e.1 == "signature.sig"))).map
          (fun e => pathStr e.1)) :=
      sortStrings_perm_eq ((hperm.filter _).map _)
    rw [this]

/-- Witness for C1 at a concrete tree: files b.txt and a.txt plus a
directory, walked in two different orders. -/
theorem computeContentHash_canonical_witness :
    computeContentHash (fun l => l)
        [(["b.txt"], false), (["a.txt"], false), (["audio"], true)]
        (fun p => strBytes p)
      = (fun l => l) (specCanonicalSerialization
          [(["b.txt"], false), (["a.txt"], false), (["audio"], true)]
          (fun p => strBytes p)) ∧
    computeContentHash (fun l => l)
        [(["b.txt"], false), (["a.txt"], false), (["audio"], true)]
        (fun p => strBytes p)
      = computeContentHash (fun l => l)
        [(["a.txt"], false), (["b.txt"], false), (["audio"], true)]
        (fun p => strBytes p) :=
  computeContentHash_canonical (fun l => l) (fun p => strBytes p) _ _
    (List.Perm.swap (["a.txt"], false) (["b.txt"], false) [(["audio"], true)])

/-- C2 counterexample: with the original archive present, a successful
remove step followed by a failing rename leaves no archive at the
original path: the original (contents [1, 2, 3]) is not intact — the
result at the original path is none. -/
theorem signReplace_rename_fail_loses_original :
    (signReplace { orig := some [1, 2, 3], tmp := none } [7, 7] false true)
      = ({ orig := none, tmp := some [7, 7] }, true) ∧
    (none : Option (List Nat)) ≠ some [1, 2, 3] := by
  constructor
  · rfl
  · intro h
    cases h

/-- C2 amended: the re-signed archive is written to the sibling temp path
first, and the original is then removed and the temp renamed to the
original path. If the remove step fails, an error is returned and the
original remains intact (the temp is deleted). If the remove succeeds and
the rename step fails, an error is returned but the original is gone: the
new archive is left at the temp path and nothing remains at the original
path. On success the new archive sits at the original path. -/
theorem signReplace_cases (fs0 : BundleFS) (newC : List Nat) :
    (∀ renameFails,
      signReplace fs0 newC true renameFails
        = ({ orig := fs0.orig, tmp := none }, true)) ∧
    signReplace fs0 newC false true = ({ orig := none, tmp := some newC }, true) ∧
    signReplace fs0 newC false false = ({ orig := some newC, tmp := none }, false) := by
  refine ⟨fun renameFails => ?_, rfl, rfl⟩
  simp [signReplace]

/-- C5 (code bug): for a bundle directory that contains signature.sig,
the info command's signature status is computed from the presence of the
file alone. At the failing input — a signed tree whose content was
modified after signing — running info with --verify prints
"Signed: Yes (verification not yet implemented)": no digest is
recomputed, no pass/fail outcome is produced, and the output is identical
to that for the untampered tree. -/
theorem info_verify_not_implemented :
    runInfoSignedLine
        [("signature.sig", .file [1]), ("x.txt", .file [2])] true
      = "Signed: Yes (verification not yet implemented)" ∧
    runInfoSignedLine
        [("signature.sig", .file [1]), ("x.txt", .file [3])] true
      = runInfoSignedLine
        [("signature.sig", .file [1]), ("x.txt", .file [2])] true ∧
    runInfoSignedLine [("x.txt", .file [2])] true = "Signed: No" := by
  refine ⟨rfl, rfl, rfl⟩

/-! ## Packager/extractor lemmas -/

/-- Path cleaning is the identity on plain names appended to the root. -/
theorem cleanAppend_wf :
    ∀ (segs : Path) (root : Path), (∀ s ∈ segs, wfName s) →
      cleanAppend root segs = root ++ segs
  | [], root, _ => by simp [cleanAppend]
  | s :: segs, root, h => by
    obtain ⟨h1, h2, h3, _⟩ := h s (by simp)
    have hstep : cleanAppend root (s :: segs) = cleanAppend (root ++ [s]) segs := by
      simp [cleanAppend, h1, h2, h3]
    rw [hstep, cleanAppend_wf segs (root ++ [s]) (fun x hx => h x (by simp [hx]))]
    simp

/-- A path extended by a nonempty relative path lies strictly under
itself. -/
theorem underRoot_append (root p : Path) (hp : p ≠ []) :
    underRoot root (root ++ p) = true := by
  have hlen : 0 < p.length := List.length_pos.mpr hp
  simp only [underRoot, Bool.and_eq_true, decide_eq_true_eq,
    List.isPrefixOf_iff_prefix, List.length_append]
  exact ⟨List.prefix_append root p, by omega⟩

/-- MkdirAll on a nonempty path creates the path itself. -/
theorem mem_prefixesOf_self (p : Path) (hp : p ≠ []) : p ∈ prefixesOf p := by
  have hlen : 0 < p.length := List.length_pos.mpr hp
  unfold prefixesOf
  refine List.mem_map.mpr ⟨p.length - 1, List.mem_range.mpr (by omega), ?_⟩
  have h1 : p.length - 1 + 1 = p.length := by omega
  rw [h1, List.take_length]

/-- Every walk entry has a nonempty relative path. -/
theorem walk_path_ne : ∀ (t : Tree), ∀ e ∈ walkList t, e.1 ≠ []
  | [], e, he => by simp [walkList] at he
  | x :: rest, e, he => by
    rw [show walkList (x :: rest) = walkNode x.1 x.2 ++ walkList rest from rfl] at he
    rcases List.mem_append.mp he with h | h
    · rcases x with ⟨nm, n⟩
      cases n with
      | file c =>
        have h1 : e ∈ [(([nm] : Path), FNode.file c)] := h
        rw [List.mem_singleton] at h1
        simp [h1]
      | dir ch =>
        have hsplit : e = (([nm] : Path), FNode.dir ch)
            ∨ e ∈ (walkList ch).map (fun x => (nm :: x.1, x.2)) := List.mem_cons.mp h
        rcases hsplit with h1 | h1
        · simp [h1]
        · obtain ⟨a, _, hae⟩ := List.mem_map.mp h1
          rw [← hae]
          simp
    · exact walk_path_ne rest e h

/-- Extracting the archive packed from a walk visit list of plain,
non-README entries writes exactly the listed files (root-relative) and
creates the listed directories. -/
theorem extract_pack_list (root : Path) :
    ∀ (L : List (Path × FNode)) (st0 : ExtractState),
      (∀ e ∈ L, e.1 ≠ [] ∧ (∀ s ∈ e.1, wfName s) ∧ isSubReadme e.1 = false) →
      extractBundle root (packList L) st0
        = .ok { dirs := st0.dirs ++ L.flatMap (fun e =>
                  match e.2 with
                  | .dir _ => prefixesOf (root ++ e.1)
                  | .file _ => prefixesOf ((root ++ e.1).dropLast)),
                files := st0.files ++ L.filterMap (fun e =>
                  match e.2 with
                  | .file c => some (root ++ e.1, c)
                  | .dir _ => none) }
  | [], st0, _ => by
    simp only [packList, List.filterMap_nil, List.flatMap_nil, List.append_nil]
    rfl
  | e :: L, st0, h => by
    obtain ⟨hne, hwf, hnr⟩ := h e (by simp)
    have hrest := fun x hx => h x (List.mem_cons_of_mem _ hx)
    have hdest : cleanAppend root e.1 = root ++ e.1 := cleanAppend_wf e.1 root hwf
    have hur : underRoot root (root ++ e.1) = true := underRoot_append root e.1 hne
    rcases e with ⟨p, n⟩
    cases n with
    | dir ch =>
      have hpack : packList ((p, FNode.dir ch) :: L)
          = { name := p, isDir := true, content := [] } :: packList L := by
        simp [packList, packEntry, hnr]
      have hstep : extractStep root st0 { name := p, isDir := true, content := [] }
          = .ok (mkdirAll st0 (root ++ p)) := by
        simp [extractStep, hdest, hur]
      rw [hpack]
      show List.foldlM (extractStep root) st0 _ = _
      rw [List.foldlM_cons, hstep]
      show extractBundle root (packList L) (mkdirAll st0 (root ++ p)) = _
      rw [extract_pack_list root L (mkdirAll st0 (root ++ p)) hrest]
      simp [mkdirAll, List.append_assoc]
    | file c =>
      have hpack : packList ((p, FNode.file c) :: L)
          = { name := p, isDir := false, content := c } :: packList L := by
        simp [packList, packEntry, hnr]
      have hstep : extractStep root st0 { name := p, isDir := false, content := c }
          = .ok { dirs := st0.dirs ++ prefixesOf ((root ++ p).dropLast),
                  files := st0.files ++ [(root ++ p, c)] } := by
        simp [extractStep, hdest, hur, mkdirAll]
      rw [hpack]
      show List.foldlM (extractStep root) st0 _ = _
      rw [List.foldlM_cons, hstep]
      show extractBundle root (packList L)
        { dirs := st0.dirs ++ prefixesOf ((root ++ p).dropLast),
          files := st0.files ++ [(root ++ p, c)] } = _
      rw [extract_pack_list root L _ hrest]
      simp [List.append_assoc]

/-- Two slash-free blocks followed by a separator align exactly. -/
theorem block_align :
    ∀ (x y u v : List Char), '/' ∉ x → '/' ∉ y →
      ((x ++ '/' :: u) <+: (y ++ '/' :: v) ↔ x = y ∧ u <+: v)
  | [], [], u, v, _, _ => by
    simp [List.cons_prefix_cons]
  | [], c :: y2, u, v, _, hy => by
    simp only [List.nil_append, List.cons_append, List.cons_prefix_cons]
    constructor
    · rintro ⟨h1, _⟩
      exfalso
      apply hy
      rw [h1]
      exact List.mem_cons_self c y2
    · rintro ⟨h1, _⟩
      cases h1
  | c :: x2, [], u, v, hx, _ => by
    simp only [List.cons_append, List.nil_append, List.cons_prefix_cons]
    constructor
    · rintro ⟨h1, _⟩
      exfalso
      apply hx
      rw [← h1]
      exact List.mem_cons_self c x2
    · rintro ⟨h1, _⟩
      cases h1
  | a :: x2, b :: y2, u, v, hx, hy => by
    simp only [List.cons_append, List.cons_prefix_cons]
    rw [block_align x2 y2 u v (fun hm => hx (List.mem_cons_of_mem a hm))
      (fun hm => hy (List.mem_cons_of_mem b hm))]
    constructor
    · rintro ⟨h1, h2, h3⟩
      rw [h1, h2]
      exact ⟨rfl, h3⟩
    · rintro ⟨h1, h2⟩
      injection h1 with h1a h1b
      exact ⟨h1a, h1b, h2⟩

/-- A nonempty string has a nonempty character list. -/
theorem toList_ne_nil {s : String} (h : s ≠ "") : s.toList ≠ [] := by
  intro hc
  apply h
  have h2 := congrArg String.mk hc
  simpa using h2

/-- On slash-free nonempty segments, the string-level prefix test with a
trailing separator is exactly segment-level proper-prefix. -/
theorem pathChars_prefix_iff :
    ∀ (root dest : Path), root ≠ [] →
      (∀ s ∈ root, s ≠ "" ∧ '/' ∉ s.toList) →
      (∀ s ∈ dest, s ≠ "" ∧ '/' ∉ s.toList) →
      ((pathChars root ++ ['/']) <+: pathChars dest
        ↔ (root <+: dest ∧ root.length < dest.length))
  | [], _, hne, _, _ => absurd rfl hne
  | [a], [], _, _, _ => by
    constructor
    · intro h
      simp [pathChars, List.prefix_nil] at h
    · rintro ⟨_, h2⟩
      simp at h2
  | [a], [b], _, hr, hd => by
    constructor
    · intro h
      exfalso
      have hmem : '/' ∈ (pathChars [a] ++ ['/']) := by simp
      have := h.mem hmem
      exact (hd b (by simp)).2 (by simpa [pathChars] using this)
    · rintro ⟨_, h2⟩
      simp at h2
  | [a], b :: c :: d2, _, hr, hd => by
    have hxa : '/' ∉ a.toList := (hr a (by simp)).2
    have hxb : '/' ∉ b.toList := (hd b (by simp)).2
    have hblock := block_align a.toList b.toList []
      (pathChars (c :: d2)) hxa hxb
    constructor
    · intro h
      have h2 : (a.toList ++ '/' :: []) <+: (b.toList ++ '/' :: pathChars (c :: d2)) := by
        simpa [pathChars] using h
      have h3 := (hblock.mp h2).1
      have hab : a = b := by
        have := congrArg String.mk h3
        simpa using this
      subst hab
      refine ⟨List.cons_prefix_cons.mpr ⟨rfl, List.nil_prefix⟩, by simp⟩
    · rintro ⟨h1, _⟩
      have hab : a = b := (List.cons_prefix_cons.mp h1).1
      subst hab
      show (pathChars [a] ++ ['/']) <+: pathChars (a :: c :: d2)
      have h5 : (a.toList ++ '/' :: []) <+: (a.toList ++ '/' :: pathChars (c :: d2)) :=
        hblock.mpr ⟨rfl, List.nil_prefix⟩
      simp only [pathChars]
      exact h5
  | a :: a2 :: root3, [], _, _, _ => by
    constructor
    · intro h
      simp [pathChars, List.prefix_nil] at h
    · rintro ⟨_, h2⟩
      simp at h2
  | a :: a2 :: root3, [b], _, hr, hd => by
    constructor
    · intro h
      exfalso
      have hmem : '/' ∈ (pathChars (a :: a2 :: root3) ++ ['/']) := by simp
      have := h.mem hmem
      exact (hd b (by simp)).2 (by simpa [pathChars] using this)
    · rintro ⟨_, h2⟩
      simp at h2
  | a :: a2 :: root3, b :: c :: d2, _, hr, hd => by
    have hxa : '/' ∉ a.toList := (hr a (by simp)).2
    have hxb : '/' ∉ b.toList := (hd b (by simp)).2
    have hrec := pathChars_prefix_iff (a2 :: root3) (c :: d2) (by simp)
      (fun s hs => hr s (List.mem_cons_of_mem a hs))
      (fun s hs => hd s (List.mem_cons_of_mem b hs))
    have hblock := block_align a.toList b.toList
      (pathChars (a2 :: root3) ++ ['/']) (pathChars (c :: d2)) hxa hxb
    constructor
    · intro h
      have h2 : (a.toList ++ '/' :: (pathChars (a2 :: root3) ++ ['/']))
          <+: (b.toList ++ '/' :: pathChars (c :: d2)) := by
        simpa [pathChars, List.append_assoc] using h
      obtain ⟨h3, h4⟩ := hblock.mp h2
      have hab : a = b := by
        have := congrArg String.mk h3
        simpa using this
      subst hab
      obtain ⟨h5, h6⟩ := hrec.mp h4
      exact ⟨List.cons_prefix_cons.mpr ⟨rfl, h5⟩, by simpa using Nat.succ_lt_succ h6⟩
    · rintro ⟨h1, h2⟩
      obtain ⟨hab, h3⟩ := List.cons_prefix_cons.mp h1
      subst hab
      have h6 : (a2 :: root3).length < (c :: d2).length := by
        simpa using h2
      have h4 : (pathChars (a2 :: root3) ++ ['/']) <+: pathChars (c :: d2) :=
        hrec.mpr ⟨h3, h6⟩
      have h5 : (a.toList ++ '/' :: (pathChars (a2 :: root3) ++ ['/']))
          <+: (a.toList ++ '/' :: pathChars (c :: d2)) :=
        hblock.mpr ⟨rfl, h4⟩
      show (pathChars (a :: a2 :: root3) ++ ['/']) <+: pathChars (a :: c :: d2)
      simpa [pathChars, List.append_assoc] using h5

/-- The code's string-level HasPrefix check coincides with the
segment-level strictly-under-root check on clean paths. -/
theorem goPrefixCheck_eq_underRoot (root dest : Path) (hne : root ≠ [])
    (hr : ∀ s ∈ root, s ≠ "" ∧ '/' ∉ s.toList)
    (hd : ∀ s ∈ dest, s ≠ "" ∧ '/' ∉ s.toList) :
    goPrefixCheck root dest = underRoot root dest := by
  rw [Bool.eq_iff_iff]
  have hL : goPrefixCheck root dest = true
      ↔ (pathChars root ++ ['/']) <+: pathChars dest := by
    simp [goPrefixCheck, List.isPrefixOf_iff_prefix, List.cons_append,
      List.cons_prefix_cons]
  have hR : underRoot root dest = true
      ↔ (root <+: dest ∧ root.length < dest.length) := by
    simp [underRoot, List.isPrefixOf_iff_prefix]
  rw [hL, hR]
  exact pathChars_prefix_iff root dest hne hr hd

/-- Path cleaning preserves clean segments: every segment of the resolved
destination is nonempty and slash-free when the root's segments are and
the entry name's segments are slash-free. -/
theorem cleanAppend_clean :
    ∀ (segs root : Path),
      (∀ s ∈ root, s ≠ "" ∧ '/' ∉ s.toList) →
      (∀ s ∈ segs, '/' ∉ s.toList) →
      ∀ s ∈ cleanAppend root segs, s ≠ "" ∧ '/' ∉ s.toList
  | [], root, hroot, _ => hroot
  | s :: segs, root, hroot, hs => by
    have hstep : cleanAppend root (s :: segs)
        = cleanAppend
          (if s == "" || s == "." then root
           else if s == ".." then root.dropLast
           else root ++ [s]) segs := rfl
    rw [hstep]
    apply cleanAppend_clean segs _ _ (fun x hx => hs x (by simp [hx]))
    split_ifs with h1 h2
    · exact hroot
    · intro x hx
      exact hroot x (List.dropLast_sublist root |>.mem hx)
    · intro x hx
      rcases List.mem_append.mp hx with hm | hm
      · exact hroot x hm
      · rw [List.mem_singleton] at hm
        subst hm
        refine ⟨?_, hs x (by simp)⟩
        intro hc
        subst hc
        simp at h1

/-- C9: an archive entry whose resolved destination does not lie strictly
under the destination root makes the whole extraction fail with an error
(nothing is written for that entry), and every accepted file entry has
the parent directories of its destination created in the same step,
before the file bytes are recorded. -/
theorem extract_escape_rejected (root : Path) (st0 st1 : ExtractState)
    (pre post : List ZipEntry) (e : ZipEntry) :
    (underRoot root (cleanAppend root e.name) = false →
      extractBundle root pre st0 = .ok st1 →
      extractBundle root (pre ++ e :: post) st0
        = .error ("invalid file path: " ++ pathStr e.name)) ∧
    (∀ (st : ExtractState) (f : ZipEntry),
      underRoot root (cleanAppend root f.name) = true → f.isDir = false →
      extractStep root st f
        = .ok { dirs := st.dirs ++ prefixesOf (cleanAppend root f.name).dropLast,
                files := st.files ++ [(cleanAppend root f.name, f.content)] } ∧
      ∀ q ∈ prefixesOf (cleanAppend root f.name).dropLast,
        q ∈ st.dirs ++ prefixesOf (cleanAppend root f.name).dropLast) := by
  constructor
  · intro hbad hpre
    unfold extractBundle at hpre ⊢
    rw [List.foldlM_append, hpre]
    show List.foldlM (extractStep root) st1 (e :: post) = _
    rw [List.foldlM_cons]
    have hstep : extractStep root st1 e
        = .error ("invalid file path: " ++ pathStr e.name) := by
      simp [extractStep, hbad]
    rw [hstep]
    rfl
  · intro st f hok hfile
    constructor
    · simp [extractStep, hok, hfile, mkdirAll]
    · intro q hq
      exact List.mem_append_right _ hq

/-- Witness for C9: extracting the crafted entry "../x.txt" under
destination root d is rejected, and the accepted file entry
audio/t.mp3 gets its parent directory created and its bytes written. -/
theorem extract_escape_rejected_witness :
    extractBundle ["d"] ([] ++ { name := ["..", "x.txt"], isDir := false, content := [1] } :: [])
        { dirs := [], files := [] }
      = .error ("invalid file path: "
          ++ pathStr (ZipEntry.name { name := ["..", "x.txt"], isDir := false, content := [1] })) ∧
    (extractStep ["d"] { dirs := [], files := [] }
        { name := ["audio", "t.mp3"], isDir := false, content := [2] }
      = .ok { dirs := [] ++ prefixesOf (cleanAppend ["d"] ["audio", "t.mp3"]).dropLast,
              files := [] ++ [(cleanAppend ["d"] ["audio", "t.mp3"], [2])] } ∧
      ∀ q ∈ prefixesOf (cleanAppend ["d"] ["audio", "t.mp3"]).dropLast,
        q ∈ ([] : List Path) ++ prefixesOf (cleanAppend ["d"] ["audio", "t.mp3"]).dropLast) :=
  ⟨(extract_escape_rejected ["d"] { dirs := [], files := [] } { dirs := [], files := [] }
      [] [] { name := ["..", "x.txt"], isDir := false, content := [1] }).1
      (by decide) rfl,
   (extract_escape_rejected ["d"] { dirs := [], files := [] } { dirs := [], files := [] }
      [] [] { name := ["..", "x.txt"], isDir := false, content := [1] }).2
      { dirs := [], files := [] } { name := ["audio", "t.mp3"], isDir := false, content := [2] }
      (by decide) rfl⟩

/-- C4 counterexample: packing a tree that contains images/README.txt
(as created by rice init) silently drops that file, so unpacking the
packed archive does not reproduce the original tree: the extracted copy
has no files while the source tree has one. -/
theorem pack_unpack_drops_sub_readme :
    extractBundle ["d"]
        (packEntries [("images", .dir [("README.txt", .file [82, 77])])])
        { dirs := [], files := [] }
      = .ok { dirs := [["d"], ["d", "images"]], files := [] } ∧
    treeFiles [("images", .dir [("README.txt", .file [82, 77])])]
      = [(["images", "README.txt"], [82, 77])] := by
  exact ⟨rfl, rfl⟩

/-- C4 amended: for every well-formed source tree with no subdirectory
README.txt helper entries, unpacking the packed archive into a
destination root succeeds and yields exactly the original regular files
(same relative names, same byte contents, in walk order) and recreates
every directory of the original tree. -/
theorem pack_unpack_roundtrip (root : Path) (t : Tree)
    (hwf : wfTree t) (hnr : noSubReadme t) :
    ∃ st, extractBundle root (packEntries t) { dirs := [], files := [] } = .ok st ∧
      st.files = (treeFiles t).map (fun f => (root ++ f.1, f.2)) ∧
      ∀ d ∈ treeDirs t, (root ++ d) ∈ st.dirs := by
  have h := extract_pack_list root (walkList t) { dirs := [], files := [] }
    (fun e he => ⟨walk_path_ne t e he, hwf e he, hnr e he⟩)
  refine ⟨_, h, ?_, ?_⟩
  · show ([] : List (Path × List Nat)) ++ _ = _
    rw [List.nil_append]
    unfold treeFiles
    rw [List.map_filterMap]
    have hfun : (fun (e : Path × FNode) =>
        Option.map (fun (f : Path × List Nat) => (root ++ f.1, f.2))
          (match e.2 with
           | .file c => some (e.1, c)
           | .dir _ => none))
      = (fun (e : Path × FNode) =>
          match e.2 with
          | .file c => some (root ++ e.1, c)
          | .dir _ => none) := by
      funext e
      rcases e with ⟨p, n⟩
      cases n <;> rfl
    rw [hfun]
  · intro d hd
    show (root ++ d) ∈ ([] : List Path) ++ _
    rw [List.nil_append]
    obtain ⟨e, he, hde⟩ := List.mem_filterMap.mp hd
    rcases e with ⟨p, n⟩
    cases n with
    | file c => simp at hde
    | dir ch =>
      have hpd : p = d := by simpa using hde
      subst hpd
      refine List.mem_flatMap.mpr ⟨(p, FNode.dir ch), he, ?_⟩
      show (root ++ p) ∈ prefixesOf (root ++ p)
      apply mem_prefixesOf_self
      have hne : p ≠ [] := walk_path_ne t _ he
      intro hcon
      exact hne (List.append_eq_nil.mp hcon).2

/-- Witness for C4 at a concrete two-file tree. -/
theorem pack_unpack_roundtrip_witness :
    ∃ st, extractBundle ["dest"]
        (packEntries [("audio", .dir [("t.mp3", .file [255, 251])]),
                      ("manifest.yaml", .file [5])])
        { dirs := [], files := [] } = .ok st ∧
      st.files = (treeFiles [("audio", .dir [("t.mp3", .file [255, 251])]),
                             ("manifest.yaml", .file [5])]).map
        (fun f => ((["dest"] : Path) ++ f.1, f.2)) ∧
      ∀ d ∈ treeDirs [("audio", .dir [("t.mp3", .file [255, 251])]),
                      ("manifest.yaml", .file [5])],
        ((["dest"] : Path) ++ d) ∈ st.dirs :=
  pack_unpack_roundtrip ["dest"] _ (by decide) (by decide)

/-! ## Validator lemmas -/

theorem wfResult_mkPass (c k : String) : wfResult (mkPass c k) :=
  Or.inl ⟨rfl, rfl⟩

theorem wfResult_mkErr (c k m : String) : wfResult (mkErr c k m) :=
  Or.inr ⟨rfl, rfl⟩

theorem wf_of_mem_ite_err {c : Prop} [Decidable c] {ca ch m : String}
    {r : Result} (hr : r ∈ (if c then [mkErr ca ch m] else [])) : wfResult r := by
  split at hr
  · rw [List.mem_singleton] at hr
    subst hr
    exact wfResult_mkErr _ _ _
  · cases hr

theorem wfResult_structCheck (ok : Bool) (chk msg : String) :
    wfResult (structCheck ok chk msg) := by
  unfold structCheck
  split
  · exact wfResult_mkPass _ _
  · exact wfResult_mkErr _ _ _

theorem structureResults_wf (t : Tree) :
    ∀ r ∈ structureResults t, wfResult r := by
  intro r hr
  unfold structureResults at hr
  simp only [List.mem_cons, List.not_mem_nil, or_false] at hr
  rcases hr with rfl | rfl | rfl | rfl | rfl <;> exact wfResult_structCheck _ _ _

theorem manifestCheck_wf (bad : Bool) (chk msg : String) :
    ∀ r ∈ manifestCheck bad chk msg, wfResult r := by
  intro r hr
  unfold manifestCheck at hr
  split at hr <;> rw [List.mem_singleton] at hr <;> subst hr
  · exact wfResult_mkErr _ _ _
  · exact wfResult_mkPass _ _

theorem trackResults_wf (tracks : List Track) :
    ∀ r ∈ trackResults tracks, wfResult r := by
  intro r hr
  unfold trackResults at hr
  obtain ⟨it, _, hmem⟩ := List.mem_flatMap.mp hr
  rcases List.mem_append.mp hmem with h | h
  · rcases List.mem_append.mp h with h2 | h2
    · exact wf_of_mem_ite_err h2
    · exact wf_of_mem_ite_err h2
  · exact wf_of_mem_ite_err h

theorem manifestFieldResults_wf (m : Manifest) :
    ∀ r ∈ manifestFieldResults m, wfResult r := by
  intro r hr
  unfold manifestFieldResults at hr
  simp only [List.mem_append] at hr
  rcases hr with ((((((((h | h) | h) | h) | h) | h) | h) | h) | h) | h
  · exact manifestCheck_wf _ _ _ r h
  · exact manifestCheck_wf _ _ _ r h
  · exact manifestCheck_wf _ _ _ r h
  · exact manifestCheck_wf _ _ _ r h
  · split at h
    · rw [List.mem_singleton] at h
      subst h
      exact wfResult_mkErr _ _ _
    · rcases List.mem_cons.mp h with rfl | h2
      · exact wfResult_mkPass _ _
      · exact trackResults_wf _ r h2
  · exact manifestCheck_wf _ _ _ r h
  · exact manifestCheck_wf _ _ _ r h
  · exact manifestCheck_wf _ _ _ r h
  · exact manifestCheck_wf _ _ _ r h
  · exact manifestCheck_wf _ _ _ r h

theorem manifestResults_wf (parse : List Nat → Option Manifest) (t : Tree) :
    ∀ r ∈ manifestResults parse t, wfResult r := by
  intro r hr
  unfold manifestResults at hr
  split at hr
  · split at hr
    · rw [List.mem_singleton] at hr
      subst hr
      exact wfResult_mkErr _ _ _
    · rcases List.mem_cons.mp hr with rfl | h
      · exact wfResult_mkPass _ _
      · exact manifestFieldResults_wf _ r h
  · rw [List.mem_singleton] at hr
    subst hr
    exact wfResult_mkErr _ _ _

theorem audioFileCheck_wf (name : String) (content : List Nat) :
    wfResult (audioFileCheck name content).1 := by
  unfold audioFileCheck
  dsimp only
  split_ifs with h1 h2
  · exact wfResult_mkErr _ _ _
  · exact wfResult_mkErr _ _ _
  · cases hm : magicCheck (lowerStr (extOf name)) content with
    | none => exact wfResult_mkPass _ _
    | some msg => exact wfResult_mkErr _ _ _

theorem audioEntryResults_wf (entries : Tree) :
    ∀ r ∈ audioEntryResults entries, wfResult r := by
  intro r hr
  unfold audioEntryResults at hr
  obtain ⟨e, _, hmem⟩ := List.mem_flatMap.mp hr
  rcases e with ⟨nm, n⟩
  cases n with
  | dir ch => cases hmem
  | file c =>
    rw [List.mem_singleton] at hmem
    subst hmem
    exact audioFileCheck_wf nm c

theorem audioResults_wf (t : Tree) : ∀ r ∈ audioResults t, wfResult r := by
  intro r hr
  unfold audioResults at hr
  split at hr
  · cases hr
  · rw [List.mem_singleton] at hr
    subst hr
    exact wfResult_mkErr _ _ _
  · rcases List.mem_append.mp hr with h | h
    · exact audioEntryResults_wf _ r h
    · exact wf_of_mem_ite_err h

theorem imageFileCheck_wf (name : String) (content : List Nat) :
    ∀ r ∈ imageFileCheck name content, wfResult r := by
  intro r hr
  unfold imageFileCheck at hr
  dsimp only at hr
  split_ifs at hr with h1 h2 h3 h4 h5
  · cases hr
  · rw [List.mem_singleton] at hr
    subst hr
    exact wfResult_mkErr _ _ _
  · rw [List.mem_singleton] at hr
    subst hr
    exact wfResult_mkErr _ _ _
  · split at hr <;> rw [List.mem_singleton] at hr <;> subst hr
    · exact wfResult_mkErr _ _ _
    · exact wfResult_mkErr _ _ _
  · split at hr <;> rw [List.mem_singleton] at hr <;> subst hr
    · exact wfResult_mkErr _ _ _
    · exact wfResult_mkPass _ _
  · split at hr <;> rw [List.mem_singleton] at hr <;> subst hr
    · exact wfResult_mkErr _ _ _
    · exact wfResult_mkPass _ _

theorem imagesResults_wf (t : Tree) : ∀ r ∈ imagesResults t, wfResult r := by
  intro r hr
  unfold imagesResults at hr
  split at hr
  · cases hr
  · rw [List.mem_singleton] at hr
    subst hr
    exact wfResult_mkErr _ _ _
  · obtain ⟨e, _, hmem⟩ := List.mem_flatMap.mp hr
    rcases e with ⟨nm, n2⟩
    cases n2 with
    | dir ch => cases hmem
    | file c => exact imageFileCheck_wf nm c r hmem

/-- The per-entry Security decision yields some Result exactly when the
code's rejection condition holds. -/
theorem securityEntryResult_some_iff (segs : Path) (isDir : Bool) :
    (securityEntryResult segs isDir).isSome
      ↔ codeSecurityViolation segs isDir = true := by
  unfold securityEntryResult codeSecurityViolation
  dsimp only
  split_ifs with h1 h2 h3 h4 h5 <;> simp_all

/-- Every Result the Security walk records is a failing error Result. -/
theorem securityEntryResult_wf (segs : Path) (isDir : Bool) (r : Result)
    (h : securityEntryResult segs isDir = some r) :
    r.Category = "Security" ∧ r.Passed = false ∧ r.Severity = "error" := by
  unfold securityEntryResult at h
  dsimp only at h
  split_ifs at h with h1 h2 h3 h4 h5 <;>
    first
      | exact Option.noConfusion h
      | (injection h with h; subst h; exact ⟨rfl, rfl, rfl⟩)

theorem securityResults_wf (t : Tree) :
    ∀ r ∈ securityResults t, wfResult r := by
  intro r hr
  unfold securityResults at hr
  obtain ⟨e, _, hmem⟩ := List.mem_filterMap.mp hr
  obtain ⟨_, hp, hs⟩ := securityEntryResult_wf e.1 e.2.isDirN r hmem
  exact Or.inr ⟨hp, hs⟩

theorem copyrightResults_wf (t : Tree) :
    ∀ r ∈ copyrightResults t, wfResult r := by
  intro r hr
  unfold copyrightResults at hr
  split at hr
  · split at hr
    · rw [List.mem_singleton] at hr
      subst hr
      exact wfResult_mkErr _ _ _
    · simp only [List.mem_append] at hr
      rcases hr with ((h | h) | h) | h
      · rw [List.mem_singleton] at h
        subst h
        exact wfResult_mkPass _ _
      · split at h <;> rw [List.mem_singleton] at h <;> subst h
        · exact wfResult_mkErr _ _ _
        · exact wfResult_mkPass _ _
      · split at h <;> rw [List.mem_singleton] at h <;> subst h
        · exact wfResult_mkErr _ _ _
        · exact wfResult_mkPass _ _
      · exact wf_of_mem_ite_err h
  · cases hr

theorem runChecks_wf (parse : List Nat → Option Manifest) (t : Tree) :
    ∀ r ∈ runChecks parse t, wfResult r := by
  intro r hr
  unfold runChecks at hr
  simp only [List.mem_append] at hr
  rcases hr with ((((h | h) | h) | h) | h) | h
  · exact structureResults_wf t r h
  · exact manifestResults_wf parse t r h
  · exact audioResults_wf t r h
  · exact imagesResults_wf t r h
  · exact securityResults_wf t r h
  · exact copyrightResults_wf t r h

theorem countWarns_eq_zero :
    ∀ (rs : List Result), (∀ r ∈ rs, wfResult r) → countWarns rs = 0
  | [], _ => rfl
  | r :: rs, h => by
    have hr := h r (by simp)
    have hrest := countWarns_eq_zero rs (fun x hx => h x (by simp [hx]))
    unfold countWarns at hrest ⊢
    rw [List.filter_cons]
    rcases hr with ⟨hp, _⟩ | ⟨hp, hs⟩
    · simp [hp, hrest]
    · simp [hp, hs, hrest]

theorem countErrors_eq_failures :
    ∀ (rs : List Result), (∀ r ∈ rs, wfResult r) →
      countErrors rs = (rs.filter (fun x => !x.Passed)).length
  | [], _ => rfl
  | r :: rs, h => by
    have hr := h r (by simp)
    have hrest := countErrors_eq_failures rs (fun x hx => h x (by simp [hx]))
    unfold countErrors at hrest ⊢
    rw [List.filter_cons, List.filter_cons]
    rcases hr with ⟨hp, _⟩ | ⟨hp, hs⟩
    · simp [hp, hrest]
    · simp [hp, hs, hrest]

/-- C6: Validate returns a failure exactly when the tree root cannot be
read (path missing or not a directory); for every readable directory it
returns the report of all six category checks — content violations are
Results inside the report, never errors. -/
theorem validate_fails_only_on_unreadable_root
    (parse : List Nat → Option Manifest) (pathName : String)
    (root : Option FNode) :
    ((∃ t, root = some (.dir t)) ↔ (∃ r, Validate parse pathName root = .ok r)) ∧
    ∀ t, Validate parse pathName (some (.dir t))
      = .ok (mkReport pathName (runChecks parse t)) := by
  constructor
  · constructor
    · rintro ⟨t, rfl⟩
      exact ⟨mkReport pathName (runChecks parse t), rfl⟩
    · rintro ⟨r, hr⟩
      cases root with
      | none => simp [Validate] at hr
      | some n =>
        cases n with
        | file c =>
          simp only [Validate] at hr
          by_cases he : pathName.endsWith ".ricecake" = true
          · rw [if_pos he] at hr
            exact Except.noConfusion hr
          · rw [if_neg he] at hr
            exact Except.noConfusion hr
        | dir t => exact ⟨t, rfl⟩
  · intro t
    rfl

/-- C7: when the metadata file exists as a readable file but fails to
parse, the Manifest category contributes exactly one Result — the parse
failure, an error — with no further manifest field checks, while the
report still carries each of the five other categories' own Results. -/
theorem manifest_parse_failure_isolated
    (parse : List Nat → Option Manifest) (pathName : String) (t : Tree)
    (c : List Nat) (hfile : statPath t ["manifest.yaml"] = some (.file c))
    (hparse : parse c = none) :
    manifestResults parse t
      = [mkErr "Manifest" "valid YAML syntax" "invalid YAML"] ∧
    Validate parse pathName (some (.dir t))
      = .ok (mkReport pathName
          (structureResults t
            ++ [mkErr "Manifest" "valid YAML syntax" "invalid YAML"]
            ++ audioResults t ++ imagesResults t ++ securityResults t
            ++ copyrightResults t)) ∧
    (structureResults t).length = 5 := by
  have h1 : manifestResults parse t
      = [mkErr "Manifest" "valid YAML syntax" "invalid YAML"] := by
    simp only [manifestResults, hfile, hparse]
  refine ⟨h1, ?_, rfl⟩
  show Except.ok (mkReport pathName (runChecks parse t)) = _
  unfold runChecks
  rw [h1]

/-- Witness for C7: a one-file tree whose manifest.yaml the parser
rejects. -/
theorem manifest_parse_failure_isolated_witness :
    manifestResults (fun _ => none) [("manifest.yaml", FNode.file [58])]
      = [mkErr "Manifest" "valid YAML syntax" "invalid YAML"] ∧
    Validate (fun _ => none) "p" (some (.dir [("manifest.yaml", FNode.file [58])]))
      = .ok (mkReport "p"
          (structureResults [("manifest.yaml", FNode.file [58])]
            ++ [mkErr "Manifest" "valid YAML syntax" "invalid YAML"]
            ++ audioResults [("manifest.yaml", FNode.file [58])]
            ++ imagesResults [("manifest.yaml", FNode.file [58])]
            ++ securityResults [("manifest.yaml", FNode.file [58])]
            ++ copyrightResults [("manifest.yaml", FNode.file [58])])) ∧
    (structureResults [("manifest.yaml", FNode.file [58])]).length = 5 :=
  manifest_parse_failure_isolated (fun _ => none) "p"
    [("manifest.yaml", FNode.file [58])] [58] rfl rfl

/-- C8 amended: the Security walk records an error Result for an entry
exactly when the code's condition holds — the relative path string
contains ".." as a substring (not necessarily as a whole segment), or
the entry is a hidden non-directory, or a file without an extension, or
a file whose lowercased extension is outside the global allow-list — and
every recorded Result is a failing error in the Security category. -/
theorem security_records_error_iff (segs : Path) (isDir : Bool) :
    ((securityEntryResult segs isDir).isSome
      ↔ codeSecurityViolation segs isDir = true) ∧
    ∀ r, securityEntryResult segs isDir = some r →
      r.Category = "Security" ∧ r.Passed = false ∧ r.Severity = "error" :=
  ⟨securityEntryResult_some_iff segs isDir,
   fun r h => securityEntryResult_wf segs isDir r h⟩

/-- Witness for C8 at the hidden file .hidden. -/
theorem security_records_error_iff_witness :
    ((securityEntryResult [".hidden"] false).isSome
      ↔ codeSecurityViolation [".hidden"] false = true) ∧
    ((mkErr "Security" "file .hidden" "hidden files not allowed").Category
        = "Security" ∧
     (mkErr "Security" "file .hidden" "hidden files not allowed").Passed
        = false ∧
     (mkErr "Security" "file .hidden" "hidden files not allowed").Severity
        = "error") :=
  ⟨(security_records_error_iff [".hidden"] false).1,
   (security_records_error_iff [".hidden"] false).2 _ rfl⟩

/-- C8 counterexample: a file named a..b.txt has no parent-directory
segment, is not hidden, and has the allow-listed extension .txt, yet the
Security category records a path-traversal error for it because the code
checks for the substring ".." anywhere in the relative path. -/
theorem security_substring_not_parent_segment :
    securityResults [("a..b.txt", FNode.file [1])]
      = [mkErr "Security" "path a..b.txt" "path traversal detected"] ∧
    specSecurityViolation ["a..b.txt"] false = false := by
  constructor
  · rfl
  · rfl

/-- C10: every Result a reachable validator report records with
Passed = false carries severity "error" — no check emits a warning — so
the report satisfies Warns = 0 and Errors = number of failed Results,
and strict-mode warning promotion never changes the effective error
count. -/
theorem validator_failures_all_errors
    (parse : List Nat → Option Manifest) (pathName : String)
    (root : Option FNode) (r : Report)
    (h : Validate parse pathName root = .ok r) :
    (∀ res ∈ r.Results, res.Passed = false → res.Severity = "error") ∧
    r.Warns = 0 ∧
    r.Errors = (r.Results.filter (fun x => !x.Passed)).length ∧
    ∀ strict, effectiveErrors strict r = r.Errors := by
  cases root with
  | none => simp [Validate] at h
  | some n =>
    cases n with
    | file c =>
      simp only [Validate] at h
      by_cases he : pathName.endsWith ".ricecake" = true
      · rw [if_pos he] at h
        exact Except.noConfusion h
      · rw [if_neg he] at h
        exact Except.noConfusion h
    | dir t =>
      have hrep : r = mkReport pathName (runChecks parse t) := by
        have h2 : Except.ok (ε := String)
            (mkReport pathName (runChecks parse t)) = Except.ok r := h
        cases h2
        rfl
      subst hrep
      have hwf := runChecks_wf parse t
      have hwarn : countWarns (runChecks parse t) = 0 :=
        countWarns_eq_zero _ hwf
      refine ⟨?_, hwarn, countErrors_eq_failures _ hwf, ?_⟩
      · intro res hres hfail
        rcases hwf res hres with ⟨hp, _⟩ | ⟨_, hs⟩
        · rw [hfail] at hp
          cases hp
        · exact hs
      · intro strict
        cases strict
        · rfl
        · show countErrors (runChecks parse t) + countWarns (runChecks parse t) = _
          rw [hwarn]
          rfl

/-- Witness for C10: the validator run on a concrete one-file tree. -/
theorem validator_failures_all_errors_witness :
    (∀ res ∈ (mkReport "p"
        (runChecks (fun _ => none) [("copyright.txt", FNode.file [67])])).Results,
      res.Passed = false → res.Severity = "error") ∧
    (mkReport "p"
        (runChecks (fun _ => none) [("copyright.txt", FNode.file [67])])).Warns = 0 ∧
    (mkReport "p"
        (runChecks (fun _ => none) [("copyright.txt", FNode.file [67])])).Errors
      = ((mkReport "p"
          (runChecks (fun _ => none) [("copyright.txt", FNode.file [67])])).Results.filter
            (fun x => !x.Passed)).length ∧
    ∀ strict, effectiveErrors strict
        (mkReport "p" (runChecks (fun _ => none) [("copyright.txt", FNode.file [67])]))
      = (mkReport "p"
          (runChecks (fun _ => none) [("copyright.txt", FNode.file [67])])).Errors :=
  validator_failures_all_errors (fun _ => none) "p"
    (some (.dir [("copyright.txt", FNode.file [67])])) _ rfl

end RiceCLI
